import Mathlib

/-!
Shallow embedding of the scoring core of `backend/utils/scoring.py`
(transcript scoring pipeline: text normalisation, keyword matching,
semantic similarity, length compliance, per-criterion and overall scores).

Modelling conventions:
* Python `str` is modelled as Lean `String` (a `List Char`), scoped to the
  ASCII character classes of Python's `re` module.
* Python floats are modelled as `ℚ`; `round(x, 1)` is modelled exactly
  (round half to even on the rational value).
* The external collaborators (the sentence-transformer `model.encode` and
  sklearn's `cosine_similarity`) are abstracted as function parameters;
  a failing embedding call is `none`.
-/

namespace Scoring

/-- ASCII whitespace, the characters matched by Python's regex class
`\s` and split/stripped by `str.split()` / `str.strip()` (ASCII range). -/
def isSpaceChar (c : Char) : Bool :=
  c = ' ' || c = '\t' || c = '\n' || c = '\r' || c = '\x0b' || c = '\x0c'

/-- ASCII word character, Python's regex class `\w`: alphanumeric or
underscore. -/
def isWordChar (c : Char) : Bool :=
  c.isAlphanum || c = '_'

/-- One character of `re.sub(r'[^\w\s]', ' ', text)`: a character that is
neither a word character nor whitespace is replaced by a single space. -/
def subPunctChar (c : Char) : Char :=
  if isWordChar c || isSpaceChar c then c else ' '

/-- `re.sub(r'\s+', ' ', text)`: each maximal run of whitespace becomes one
space.  The boolean records whether the previous character was whitespace. -/
def collapseWsAux : Bool → List Char → List Char
  | _, [] => []
  | prevSpace, c :: cs =>
    if isSpaceChar c then
      if prevSpace then collapseWsAux true cs
      else ' ' :: collapseWsAux true cs
    else c :: collapseWsAux false cs

/-- `re.sub(r'\s+', ' ', text)` on a character list. -/
def collapseWs (l : List Char) : List Char := collapseWsAux false l

/-- Python `str.strip()`: drop leading and trailing whitespace. -/
def stripChars (l : List Char) : List Char :=
  ((l.dropWhile isSpaceChar).reverse.dropWhile isSpaceChar).reverse

/-- `preprocess_text` from scoring.py on a character list:
lowercase, replace non-word non-space characters by spaces, collapse
whitespace runs, strip. -/
def preprocessList (l : List Char) : List Char :=
  stripChars (collapseWs ((l.map Char.toLower).map subPunctChar))

/-- `preprocess_text` from scoring.py. -/
def preprocess_text (s : String) : String :=
  ⟨preprocessList s.data⟩

/-- Helper for Python `str.split()`; `acc` is the current token, reversed. -/
def pySplitAux (acc : List Char) : List Char → List (List Char)
  | [] => if acc.isEmpty then [] else [acc.reverse]
  | c :: cs =>
    if isSpaceChar c then
      if acc.isEmpty then pySplitAux [] cs
      else acc.reverse :: pySplitAux [] cs
    else pySplitAux (c :: acc) cs

/-- Python `str.split()` with no argument: split on whitespace runs,
discarding empty tokens. -/
def pySplit (l : List Char) : List (List Char) := pySplitAux [] l

/-- `count_words` from scoring.py: `len(text.split())`. -/
def count_words (s : String) : Nat := (pySplit s.data).length

/-- Python `str.strip()` on a `String`. -/
def pyStrip (s : String) : String := ⟨stripChars s.data⟩

/-- ASCII uppercase letter test, on code points (the test used by
`str.lower()` in the ASCII range). -/
def isUpperAscii (c : Char) : Bool :=
  decide (65 ≤ c.toNat ∧ c.toNat ≤ 90)

/-- A character that normalized text may contain besides the separating
space: a word character that is not an uppercase letter. -/
def goodChar (c : Char) : Bool :=
  (isWordChar c && !(isUpperAscii c)) || c == ' '

/-- No two adjacent whitespace characters anywhere in the list. -/
def noAdjSpaces : List Char → Bool
  | a :: b :: rest => (!(isSpaceChar a && isSpaceChar b)) && noAdjSpaces (b :: rest)
  | _ => true

/-- The first character, if any, is not whitespace. -/
def firstNotSpace : List Char → Bool
  | [] => true
  | c :: _ => !(isSpaceChar c)

/-- Levenshtein edit distance between two character lists (unit costs). -/
def edit_distance (a b : List Char) : ℕ :=
  levenshtein Levenshtein.defaultCost a b

/-- Modelled from the spec: `fuzz.ratio` of the external fuzzywuzzy library,
"a normalized edit-distance-based similarity metric scaled 0-100"
(spec 4.2, 9: exact numeric parity with the library is not a goal). -/
def fuzz_ratio (a b : List Char) : ℚ :=
  if a.length + b.length = 0 then 100
  else 100 * (((a.length : ℚ) + (b.length : ℚ)) - (edit_distance a b : ℚ))
         / ((a.length : ℚ) + (b.length : ℚ))

/-- Python substring containment `needle in haystack`. -/
def isSubstring (needle : List Char) : List Char → Bool
  | [] => needle.isEmpty
  | c :: cs => needle.isPrefixOf (c :: cs) || isSubstring needle cs

/-- The per-keyword test of `check_keywords`: exact substring containment of
the lowercased keyword in the preprocessed transcript, otherwise a fuzzy
match against any whitespace-separated token of the preprocessed
transcript. -/
def keywordFound (transcript_lower : List Char) (fuzzy_threshold : ℚ) (kw : String) : Bool :=
  let keyword_lower := kw.data.map Char.toLower
  isSubstring keyword_lower transcript_lower ||
    (pySplit transcript_lower).any (fun word => fuzzy_threshold ≤ fuzz_ratio keyword_lower word)

/-- `check_keywords` from scoring.py: the loop appends each keyword to
`found` or `missing`; the score is `(len(found) / len(keywords)) * 100` for
a nonempty keyword list and `0` otherwise.  `fuzzy_threshold` is a parameter
(its Python default, used at the call site in `score_criterion`, is 85).
Returns `(found, missing, keyword_score)`. -/
def check_keywords (transcript : String) (keywords : List String) (fuzzy_threshold : ℚ) :
    List String × List String × ℚ :=
  let transcript_lower := preprocessList transcript.data
  let fm := keywords.foldl
    (fun (fm : List String × List String) keyword =>
      if keywordFound transcript_lower fuzzy_threshold keyword then
        (fm.1 ++ [keyword], fm.2)
      else
        (fm.1, fm.2 ++ [keyword]))
    ([], [])
  let keyword_score : ℚ :=
    if keywords.isEmpty then 0 else ((fm.1.length : ℚ) / (keywords.length : ℚ)) * 100
  (fm.1, fm.2, keyword_score)

/-- The reference text built by `calculate_semantic_similarity`:
`f"{criterion_description}. Keywords: {', '.join(keywords)}"`. -/
def reference_text (criterion_description : String) (keywords : List String) : String :=
  criterion_description ++ ". Keywords: " ++ String.intercalate ", " keywords

/-- `calculate_semantic_similarity` from scoring.py, with the external
collaborators abstracted: `encode` is the embedding call (`none` models the
call raising) and `cos` is sklearn's cosine similarity of two embeddings.
A raised exception is caught and turned into `0.0`. -/
def calculate_semantic_similarity (encode : String → Option (List ℚ))
    (cos : List ℚ → List ℚ → ℚ) (transcript criterion_description : String)
    (keywords : List String) : ℚ :=
  match encode transcript, encode (reference_text criterion_description keywords) with
  | some t, some r => max 0 (min 100 (cos t r * 100))
  | _, _ => 0

/-- `calculate_word_count_score` from scoring.py.
Returns `(score, feedback)`. -/
def calculate_word_count_score (word_count min_words max_words : ℤ) : ℚ × String :=
  if word_count < min_words then
    (((word_count : ℚ) / (min_words : ℚ)) * 100,
     s!"Transcript is shorter than recommended ({word_count}/{min_words} words). Consider adding more detail.")
  else if word_count > max_words then
    let excess : ℚ := (word_count : ℚ) - (max_words : ℚ)
    let penalty : ℚ := min 50 ((excess / 100) * 20)
    (max 50 (100 - penalty),
     s!"Transcript exceeds recommended length ({word_count}/{max_words} words). Consider being more concise.")
  else
    (100, "Good length - within recommended range.")

/-- Python 3 `round(x, 1)` on the exact rational value: round half to even. -/
def round_half_even (x : ℚ) : ℤ :=
  if x - Int.floor x < 1/2 then Int.floor x
  else if 1/2 < x - Int.floor x then Int.floor x + 1
  else if Int.floor x % 2 = 0 then Int.floor x else Int.floor x + 1

/-- Python 3 `round(x, 1)`: one decimal place. -/
def pyRound1 (x : ℚ) : ℚ := ((round_half_even (10 * x) : ℤ) : ℚ) / 10

/-- A rubric entry (the dict built by `load_rubric`). -/
structure Criterion where
  name : String
  description : String
  keywords : List String
  weight : ℚ
  min_words : ℤ
  max_words : ℤ
deriving DecidableEq

/-- `models.schemas.CriterionResult`. -/
structure CriterionResult where
  name : String
  description : String
  score : ℚ
  semantic_similarity : ℚ
  keywords_found : List String
  keywords_missing : List String
  length_feedback : String
  weight : ℚ
deriving DecidableEq

/-- `models.schemas.ScoringResponse`. -/
structure ScoringResponse where
  overall_score : ℚ
  total_words : ℕ
  criteria : List CriterionResult
deriving DecidableEq

/-- The `HTTPException(status_code=400, detail=...)` raised by
`score_transcript` on an invalid transcript length. -/
inductive ScoringError where
  | invalidInput (detail : String)
deriving DecidableEq

/-- `score_criterion` from scoring.py: weighted combination of keyword score
(40%), semantic similarity (50%) and word-count compliance (10%);
`check_keywords` is called with its default threshold 85. -/
def score_criterion (encode : String → Option (List ℚ)) (cos : List ℚ → List ℚ → ℚ)
    (transcript : String) (criterion : Criterion) (word_count : ℤ) : CriterionResult :=
  let kr := check_keywords transcript criterion.keywords 85
  let semantic_score :=
    calculate_semantic_similarity encode cos transcript criterion.description criterion.keywords
  let wr := calculate_word_count_score word_count criterion.min_words criterion.max_words
  let criterion_score :=
    kr.2.2 * (0.40 : ℚ) + semantic_score * (0.50 : ℚ) + wr.1 * (0.10 : ℚ)
  { name := criterion.name
    description := criterion.description
    score := pyRound1 criterion_score
    semantic_similarity := pyRound1 semantic_score
    keywords_found := kr.1
    keywords_missing := kr.2.1
    length_feedback := wr.2
    weight := criterion.weight }

/-- `score_transcript` from scoring.py.  The rubric is a parameter (the
source obtains it from `load_rubric()`, an external file-loading
collaborator); the two `HTTPException(400, ...)` raises are modelled as
`ScoringError.invalidInput`. -/
def score_transcript (encode : String → Option (List ℚ)) (cos : List ℚ → List ℚ → ℚ)
    (rubric : List Criterion) (transcript : String) :
    Except ScoringError ScoringResponse :=
  let transcript := pyStrip transcript
  let word_count := count_words transcript
  if word_count < 10 then
    .error (.invalidInput "Transcript must contain at least 10 words")
  else if word_count > 500 then
    .error (.invalidInput "Transcript exceeds maximum length of 500 words")
  else
    let criteria_results :=
      rubric.map (fun criterion => score_criterion encode cos transcript criterion (word_count : ℤ))
    let overall_score := (criteria_results.map (fun r => r.score * r.weight)).sum
    .ok { overall_score := pyRound1 overall_score
          total_words := word_count
          criteria := criteria_results }

end Scoring

namespace Scoring

/-! ### General lemmas about the embedded functions -/

/-- The first component of `calculate_word_count_score` (the score),
as a standalone conditional. -/
theorem calculate_word_count_score_fst (word_count min_words max_words : ℤ) :
    (calculate_word_count_score word_count min_words max_words).1
      = if word_count < min_words then ((word_count : ℚ) / (min_words : ℚ)) * 100
        else if word_count > max_words then
          max 50 (100 - min 50 ((((word_count : ℚ) - (max_words : ℚ)) / 100) * 20))
        else 100 := by
  unfold calculate_word_count_score
  split_ifs <;> rfl

/-- The append-to-found-or-missing loop of `check_keywords` is a filter. -/
theorem foldl_partition_append (p : String → Bool) (l : List String) (acc1 acc2 : List String) :
    l.foldl
      (fun fm keyword => if p keyword then (fm.1 ++ [keyword], fm.2) else (fm.1, fm.2 ++ [keyword]))
      (acc1, acc2)
      = (acc1 ++ l.filter p, acc2 ++ l.filter (fun kw => !(p kw))) := by
  induction l generalizing acc1 acc2 with
  | nil => simp
  | cons x xs ih =>
    by_cases h : p x <;> simp [h, ih, List.filter_cons]

/-- `check_keywords` in closed form: found/missing are filters of the
keyword list by the per-keyword test. -/
theorem check_keywords_eq (transcript : String) (keywords : List String) (thr : ℚ) :
    check_keywords transcript keywords thr
      = (keywords.filter (keywordFound (preprocessList transcript.data) thr),
         keywords.filter (fun kw => !(keywordFound (preprocessList transcript.data) thr kw)),
         if keywords.isEmpty then 0
         else ((keywords.filter (keywordFound (preprocessList transcript.data) thr)).length : ℚ)
              / (keywords.length : ℚ) * 100) := by
  simp only [check_keywords]
  rw [foldl_partition_append]
  simp

end Scoring

namespace Scoring

/-! ### Claim theorems -/

/-- C1: For every transcript, criterion and word count, the composite
criterion score equals `keyword_score*0.40 + semantic_score*0.50 +
word_count_score*0.10` where the three sub-scores are the outputs of the
keyword matcher, the semantic similarity scorer and the length compliance
scorer on that input; the composite score and the semantic score are
rounded to one decimal place in the `CriterionResult`, and no intermediate
sub-score is rounded before the combination. -/
theorem criterion_score_composite (encode : String → Option (List ℚ))
    (cos : List ℚ → List ℚ → ℚ) (transcript : String) (criterion : Criterion)
    (word_count : ℤ) :
    (score_criterion encode cos transcript criterion word_count).score
      = pyRound1
          ((check_keywords transcript criterion.keywords 85).2.2 * 0.40
            + calculate_semantic_similarity encode cos transcript criterion.description
                criterion.keywords * 0.50
            + (calculate_word_count_score word_count criterion.min_words criterion.max_words).1
                * 0.10)
    ∧ (score_criterion encode cos transcript criterion word_count).semantic_similarity
      = pyRound1 (calculate_semantic_similarity encode cos transcript criterion.description
          criterion.keywords) :=
  ⟨rfl, rfl⟩

/-- C4: the length compliance score is `100 * word_count / min_words` below
the band, `max(50, 100 - min(50, ((word_count - max_words)/100)*20))` above
it, and `100` inside it; boundary values behave as specified. -/
theorem word_count_score_formula (word_count min_words max_words : ℤ)
    (hmin : 0 < min_words) (hle : min_words ≤ max_words) :
    (calculate_word_count_score word_count min_words max_words).1
      = (if word_count < min_words then 100 * (word_count : ℚ) / (min_words : ℚ)
         else if word_count > max_words then
           max 50 (100 - min 50 ((((word_count : ℚ) - (max_words : ℚ)) / 100) * 20))
         else 100)
    ∧ (calculate_word_count_score min_words min_words max_words).1 = 100
    ∧ (calculate_word_count_score max_words min_words max_words).1 = 100
    ∧ (calculate_word_count_score (min_words - 1) min_words max_words).1 < 100
    ∧ (calculate_word_count_score (max_words + 500) min_words max_words).1 = 50 := by
  have hmQ : (0 : ℚ) < (min_words : ℚ) := by exact_mod_cast hmin
  refine ⟨?_, ?_, ?_, ?_, ?_⟩
  · rw [calculate_word_count_score_fst]
    split_ifs <;> ring
  · rw [calculate_word_count_score_fst, if_neg (lt_irrefl _), if_neg (by omega)]
  · rw [calculate_word_count_score_fst, if_neg (by omega), if_neg (lt_irrefl _)]
  · rw [calculate_word_count_score_fst, if_pos (by omega)]
    have h1 : ((min_words - 1 : ℤ) : ℚ) / (min_words : ℚ) < 1 := by
      rw [div_lt_one hmQ]
      push_cast
      linarith
    calc ((min_words - 1 : ℤ) : ℚ) / (min_words : ℚ) * 100 < 1 * 100 := by
          exact mul_lt_mul_of_pos_right h1 (by norm_num)
      _ = 100 := by norm_num
  · rw [calculate_word_count_score_fst, if_neg (by omega), if_pos (by omega)]
    have h2 : ((max_words + 500 : ℤ) : ℚ) - (max_words : ℚ) = 500 := by
      push_cast; ring
    rw [h2]
    norm_num

/-- C10: the length compliance score is exactly 100 iff the word count lies
in the `[min_words, max_words]` band; under-minimum counts score strictly
below 100, over-maximum counts score at most 99.8 and at least 50. -/
theorem word_count_score_perfect_iff (word_count min_words max_words : ℤ)
    (hwc : 0 ≤ word_count) (hmin : 0 < min_words) (hle : min_words ≤ max_words) :
    ((calculate_word_count_score word_count min_words max_words).1 = 100
      ↔ (min_words ≤ word_count ∧ word_count ≤ max_words))
    ∧ (word_count < min_words →
        (calculate_word_count_score word_count min_words max_words).1 < 100)
    ∧ (max_words < word_count →
        (calculate_word_count_score word_count min_words max_words).1 ≤ 99.8
        ∧ 50 ≤ (calculate_word_count_score word_count min_words max_words).1) := by
  have hmQ : (0 : ℚ) < (min_words : ℚ) := by exact_mod_cast hmin
  have hunder : word_count < min_words →
      (calculate_word_count_score word_count min_words max_words).1 < 100 := by
    intro h
    rw [calculate_word_count_score_fst, if_pos h]
    have h1 : ((word_count : ℤ) : ℚ) / (min_words : ℚ) < 1 := by
      rw [div_lt_one hmQ]
      exact_mod_cast h
    calc ((word_count : ℤ) : ℚ) / (min_words : ℚ) * 100 < 1 * 100 := by
          exact mul_lt_mul_of_pos_right h1 (by norm_num)
      _ = 100 := by norm_num
  have hover : max_words < word_count →
      (calculate_word_count_score word_count min_words max_words).1 ≤ 99.8
      ∧ 50 ≤ (calculate_word_count_score word_count min_words max_words).1 := by
    intro h
    rw [calculate_word_count_score_fst, if_neg (by omega), if_pos (by omega)]
    have hex : (1 : ℚ) ≤ (word_count : ℚ) - (max_words : ℚ) := by
      have h1 : max_words + 1 ≤ word_count := by omega
      have h2 : ((max_words + 1 : ℤ) : ℚ) ≤ ((word_count : ℤ) : ℚ) := by exact_mod_cast h1
      push_cast at h2
      linarith
    have hpen : (0.2 : ℚ) ≤ min 50 ((((word_count : ℚ) - (max_words : ℚ)) / 100) * 20) := by
      apply le_min (by norm_num)
      nlinarith
    constructor
    · apply max_le (by norm_num)
      linarith
    · exact le_max_left _ _
  refine ⟨⟨?_, ?_⟩, hunder, hover⟩
  · intro h100
    by_contra hout
    rcases (by omega : word_count < min_words ∨ max_words < word_count) with h | h
    · exact absurd h100 (ne_of_lt (hunder h))
    · have := (hover h).1
      rw [h100] at this
      norm_num at this
  · rintro ⟨h1, h2⟩
    rw [calculate_word_count_score_fst, if_neg (by omega), if_neg (by omega)]

end Scoring

namespace Scoring

/-- Witness for C4 at `word_count = 30`, `min_words = 50`, `max_words = 500`. -/
theorem word_count_score_formula_witness :
    (calculate_word_count_score 30 50 500).1
      = (if (30 : ℤ) < 50 then 100 * ((30 : ℤ) : ℚ) / ((50 : ℤ) : ℚ)
         else if (30 : ℤ) > 500 then
           max 50 (100 - min 50 (((((30 : ℤ) : ℚ) - ((500 : ℤ) : ℚ)) / 100) * 20))
         else 100)
    ∧ (calculate_word_count_score 50 50 500).1 = 100
    ∧ (calculate_word_count_score 500 50 500).1 = 100
    ∧ (calculate_word_count_score (50 - 1) 50 500).1 < 100
    ∧ (calculate_word_count_score (500 + 500) 50 500).1 = 50 :=
  word_count_score_formula 30 50 500 (by decide) (by decide)

/-- Witness for C10 at `word_count = 750`, `min_words = 50`, `max_words = 500`. -/
theorem word_count_score_perfect_iff_witness :
    ((calculate_word_count_score 750 50 500).1 = 100 ↔ ((50 : ℤ) ≤ 750 ∧ (750 : ℤ) ≤ 500))
    ∧ ((750 : ℤ) < 50 → (calculate_word_count_score 750 50 500).1 < 100)
    ∧ ((500 : ℤ) < 750 →
        (calculate_word_count_score 750 50 500).1 ≤ 99.8
        ∧ 50 ≤ (calculate_word_count_score 750 50 500).1) :=
  word_count_score_perfect_iff 750 50 500 (by decide) (by decide) (by decide)

/-- C5: the semantic similarity scorer returns
`clamp(cosine_similarity * 100, 0, 100)` when both embedding calls succeed,
and returns exactly `0` (without propagating the failure) when an embedding
call fails. -/
theorem semantic_similarity_contract (encode : String → Option (List ℚ))
    (cos : List ℚ → List ℚ → ℚ) (transcript criterion_description : String)
    (keywords : List String) :
    (∀ t r, encode transcript = some t
      → encode (reference_text criterion_description keywords) = some r
      → calculate_semantic_similarity encode cos transcript criterion_description keywords
          = max 0 (min 100 (cos t r * 100)))
    ∧ ((encode transcript = none
        ∨ encode (reference_text criterion_description keywords) = none)
      → calculate_semantic_similarity encode cos transcript criterion_description keywords
          = 0) := by
  constructor
  · intro t r ht hr
    unfold calculate_semantic_similarity
    rw [ht, hr]
  · intro h
    unfold calculate_semantic_similarity
    rcases h with h | h
    · rw [h]
    · rw [h]
      cases encode transcript <;> rfl

/-- Witness for C5: a concrete embedding provider that succeeds on the
transcript and fails on the reference text yields a semantic score of 0. -/
theorem semantic_similarity_contract_witness :
    calculate_semantic_similarity
      (fun s => if s = "the talk" then some [1, 0] else none)
      (fun _ _ => 1) "the talk" "a description" ["kw"] = 0 :=
  (semantic_similarity_contract
      (fun s => if s = "the talk" then some [1, 0] else none)
      (fun _ _ => 1) "the talk" "a description" ["kw"]).2
    (Or.inr (by decide))

end Scoring

namespace Scoring

/-- C2: `score_transcript` trims the transcript, counts words by whitespace
splitting, and fails (with the invalid-input error) exactly when the count
is below 10 or above 500; in that case it short-circuits before any
per-criterion work (the result does not depend on the rubric or on the
embedding collaborators); 10 and 500 words succeed, 9 and 501 fail. -/
theorem transcript_length_validation (encode : String → Option (List ℚ))
    (cos : List ℚ → List ℚ → ℚ) (rubric : List Criterion) (transcript : String) :
    ((∃ e, score_transcript encode cos rubric transcript = .error e)
      ↔ (count_words (pyStrip transcript) < 10 ∨ 500 < count_words (pyStrip transcript)))
    ∧ ((count_words (pyStrip transcript) < 10 ∨ 500 < count_words (pyStrip transcript)) →
        ∀ (encode2 : String → Option (List ℚ)) (cos2 : List ℚ → List ℚ → ℚ)
          (rubric2 : List Criterion),
          score_transcript encode cos rubric transcript
            = score_transcript encode2 cos2 rubric2 transcript)
    ∧ (count_words (pyStrip transcript) = 9 →
        score_transcript encode cos rubric transcript
          = .error (.invalidInput "Transcript must contain at least 10 words"))
    ∧ (count_words (pyStrip transcript) = 10 →
        ∃ resp, score_transcript encode cos rubric transcript = .ok resp)
    ∧ (count_words (pyStrip transcript) = 500 →
        ∃ resp, score_transcript encode cos rubric transcript = .ok resp)
    ∧ (count_words (pyStrip transcript) = 501 →
        score_transcript encode cos rubric transcript
          = .error (.invalidInput "Transcript exceeds maximum length of 500 words")) := by
  by_cases h1 : count_words (pyStrip transcript) < 10
  · have he : ∀ (e2 : String → Option (List ℚ)) (c2 : List ℚ → List ℚ → ℚ)
        (r2 : List Criterion),
        score_transcript e2 c2 r2 transcript
          = .error (.invalidInput "Transcript must contain at least 10 words") := by
      intro e2 c2 r2
      unfold score_transcript
      rw [if_pos h1]
    refine ⟨⟨fun _ => Or.inl h1, fun _ => ⟨_, he encode cos rubric⟩⟩,
      fun _ e2 c2 r2 => (he encode cos rubric).trans (he e2 c2 r2).symm,
      fun _ => he encode cos rubric,
      fun h => absurd h (by omega),
      fun h => absurd h (by omega),
      fun h => absurd h (by omega)⟩
  · by_cases h2 : 500 < count_words (pyStrip transcript)
    · have he : ∀ (e2 : String → Option (List ℚ)) (c2 : List ℚ → List ℚ → ℚ)
          (r2 : List Criterion),
          score_transcript e2 c2 r2 transcript
            = .error (.invalidInput "Transcript exceeds maximum length of 500 words") := by
        intro e2 c2 r2
        unfold score_transcript
        rw [if_neg h1, if_pos h2]
      refine ⟨⟨fun _ => Or.inr h2, fun _ => ⟨_, he encode cos rubric⟩⟩,
        fun _ e2 c2 r2 => (he encode cos rubric).trans (he e2 c2 r2).symm,
        fun h => absurd h (by omega),
        fun h => absurd h (by omega),
        fun h => absurd h (by omega),
        fun _ => he encode cos rubric⟩
    · have hok : ∃ resp, score_transcript encode cos rubric transcript = .ok resp := by
        simp only [score_transcript, if_neg h1, if_neg h2]
        exact ⟨_, rfl⟩
      obtain ⟨resp, hresp⟩ := hok
      refine ⟨⟨?_, fun h => absurd h (by omega)⟩,
        fun h => absurd h (by omega),
        fun h => absurd h (by omega),
        fun _ => ⟨resp, hresp⟩,
        fun _ => ⟨resp, hresp⟩,
        fun h => absurd h (by omega)⟩
      rintro ⟨e, he⟩
      rw [hresp] at he
      exact absurd he (by simp)

/-- Witness for C2: a 9-word transcript fails validation, independently of
rubric and collaborators. -/
theorem transcript_length_validation_witness :
    count_words (pyStrip "w w w w w w w w w") = 9
    ∧ score_transcript (fun _ => none) (fun _ _ => 0) [] "w w w w w w w w w"
        = .error (.invalidInput "Transcript must contain at least 10 words") :=
  ⟨by decide,
   (transcript_length_validation (fun _ => none) (fun _ _ => 0) [] "w w w w w w w w w").2.2.1
     (by decide)⟩

end Scoring

namespace Scoring

/-- C3: a keyword is classified as found iff its lowercased form is an exact
substring of the normalized transcript or some whitespace token of the
normalized transcript has fuzzy similarity at or above the threshold; the
keyword score is `100 * |found| / |keywords|`, and `0` for an empty keyword
list. -/
theorem keyword_match_rule (transcript : String) (keywords : List String)
    (fuzzy_threshold : ℚ) :
    (∀ kw, kw ∈ (check_keywords transcript keywords fuzzy_threshold).1
      ↔ kw ∈ keywords
        ∧ (isSubstring (kw.data.map Char.toLower) (preprocessList transcript.data) = true
           ∨ ∃ word ∈ pySplit (preprocessList transcript.data),
               fuzzy_threshold ≤ fuzz_ratio (kw.data.map Char.toLower) word))
    ∧ (check_keywords transcript keywords fuzzy_threshold).2.2
      = (if keywords = [] then 0
         else 100 * ((check_keywords transcript keywords fuzzy_threshold).1.length : ℚ)
              / (keywords.length : ℚ)) := by
  rw [check_keywords_eq]
  constructor
  · intro kw
    simp only [List.mem_filter, keywordFound, Bool.or_eq_true, List.any_eq_true,
      decide_eq_true_eq]
  · by_cases hk : keywords = []
    · simp [hk]
    · have hne : keywords.isEmpty = false := by
        cases keywords
        · exact absurd rfl hk
        · rfl
      simp only [hne, Bool.false_eq_true, if_false, if_neg hk]
      ring

/-- Witness for C3: a keyword found by exact substring containment. -/
theorem keyword_match_rule_witness :
    "Clear" ∈ (check_keywords "a clear talk" ["Clear"] 85).1 :=
  ((keyword_match_rule "a clear talk" ["Clear"] 85).1 "Clear").2
    ⟨by decide, Or.inl (by decide)⟩

/-- C7: `keywords_found` and `keywords_missing` exactly partition the input
keyword list: together they are a permutation of the input, each is a
sublist of the input (original casing and relative order preserved), and
every input keyword lands in exactly one of the two lists. -/
theorem keyword_partition (transcript : String) (keywords : List String)
    (fuzzy_threshold : ℚ) :
    ((check_keywords transcript keywords fuzzy_threshold).1
        ++ (check_keywords transcript keywords fuzzy_threshold).2.1).Perm keywords
    ∧ (check_keywords transcript keywords fuzzy_threshold).1.Sublist keywords
    ∧ (check_keywords transcript keywords fuzzy_threshold).2.1.Sublist keywords
    ∧ ∀ kw ∈ keywords,
        (kw ∈ (check_keywords transcript keywords fuzzy_threshold).1
          ∧ kw ∉ (check_keywords transcript keywords fuzzy_threshold).2.1)
        ∨ (kw ∉ (check_keywords transcript keywords fuzzy_threshold).1
          ∧ kw ∈ (check_keywords transcript keywords fuzzy_threshold).2.1) := by
  rw [check_keywords_eq]
  refine ⟨List.filter_append_perm _ _, List.filter_sublist _, List.filter_sublist _, ?_⟩
  intro kw hkw
  by_cases h : keywordFound (preprocessList transcript.data) fuzzy_threshold kw
  · refine Or.inl ⟨List.mem_filter.2 ⟨hkw, h⟩, fun hc => ?_⟩
    have := (List.mem_filter.1 hc).2
    simp [h] at this
  · refine Or.inr ⟨fun hc => ?_, List.mem_filter.2 ⟨hkw, by simp [h]⟩⟩
    have := (List.mem_filter.1 hc).2
    simp [h] at this

/-- Witness for C7: at a concrete transcript and keyword list, the keyword
"cat" lands in exactly one of found/missing. -/
theorem keyword_partition_witness :
    ("cat" ∈ (check_keywords "the cat sat" ["cat", "zebra"] 85).1
      ∧ "cat" ∉ (check_keywords "the cat sat" ["cat", "zebra"] 85).2.1)
    ∨ ("cat" ∉ (check_keywords "the cat sat" ["cat", "zebra"] 85).1
      ∧ "cat" ∈ (check_keywords "the cat sat" ["cat", "zebra"] 85).2.1) :=
  (keyword_partition "the cat sat" ["cat", "zebra"] 85).2.2.2 "cat" (by decide)

end Scoring

namespace Scoring

/-! ### Character-level lemmas for the text normalizer -/

/-- `Char.ofNat` of a valid code point has that code point. -/
theorem char_toNat_ofNat_valid (n : ℕ) (h : n.isValidChar) :
    (Char.ofNat n).toNat = n := by
  rw [Char.ofNat, dif_pos h]
  rfl

/-- `Char.toLower` never produces an ASCII uppercase letter. -/
theorem isUpperAscii_toLower (c : Char) : isUpperAscii (Char.toLower c) = false := by
  simp only [Char.toLower]
  split_ifs with h
  · have hv : (c.toNat + 32).isValidChar := Or.inl (by omega)
    simp only [isUpperAscii, char_toNat_ofNat_valid _ hv, decide_eq_false_iff_not]
    omega
  · simp only [isUpperAscii, decide_eq_false_iff_not]
    omega

/-- `Char.toLower` fixes every character that is not an ASCII uppercase
letter. -/
theorem toLower_eq_self (c : Char) (h : isUpperAscii c = false) :
    Char.toLower c = c := by
  simp only [Char.toLower]
  simp only [isUpperAscii, decide_eq_false_iff_not] at h
  rw [if_neg]
  omega

/-- Whitespace characters are not word characters. -/
theorem isSpaceChar_not_word (c : Char) (h : isSpaceChar c = true) :
    isWordChar c = false := by
  simp only [isSpaceChar, Bool.or_eq_true, decide_eq_true_eq] at h
  rcases h with ((((h | h) | h) | h) | h) | h <;> subst h <;> decide

/-- A good character that is whitespace is the space itself. -/
theorem goodChar_space_eq (c : Char) (hg : goodChar c = true)
    (hs : isSpaceChar c = true) : c = ' ' := by
  simp only [goodChar, Bool.or_eq_true, Bool.and_eq_true, beq_iff_eq] at hg
  rcases hg with ⟨hw, _⟩ | h
  · rw [isSpaceChar_not_word c hs] at hw
    exact absurd hw (by simp)
  · exact h

/-- Good characters are not uppercase. -/
theorem goodChar_not_upper (c : Char) (hg : goodChar c = true) :
    isUpperAscii c = false := by
  simp only [goodChar, Bool.or_eq_true, Bool.and_eq_true, beq_iff_eq] at hg
  rcases hg with ⟨_, hu⟩ | h
  · simpa using hu
  · subst h; decide

end Scoring

namespace Scoring

/-! ### Lemmas about whitespace collapsing and stripping -/

/-- `noAdjSpaces` on a cons, in terms of the tail. -/
theorem noAdjSpaces_cons (a : Char) (l : List Char) :
    noAdjSpaces (a :: l) = (((!(isSpaceChar a)) || firstNotSpace l) && noAdjSpaces l) := by
  cases l with
  | nil => simp [noAdjSpaces, firstNotSpace]
  | cons b bs => simp [noAdjSpaces, firstNotSpace, Bool.not_and, Bool.and_comm]

/-- Every character in the collapsed list is a space or a non-whitespace
character of the input. -/
theorem collapseWsAux_mem (l : List Char) : ∀ (b : Bool), ∀ c ∈ collapseWsAux b l,
    c = ' ' ∨ (c ∈ l ∧ isSpaceChar c = false) := by
  induction l with
  | nil => intro b c hc; simp [collapseWsAux] at hc
  | cons x xs ih =>
    intro b c hc
    by_cases hx : isSpaceChar x
    · rw [collapseWsAux, if_pos hx] at hc
      cases b with
      | true =>
        rcases ih true c hc with h | ⟨h1, h2⟩
        · exact Or.inl h
        · exact Or.inr ⟨List.mem_cons_of_mem _ h1, h2⟩
      | false =>
        rcases List.mem_cons.1 hc with h | h
        · exact Or.inl h
        · rcases ih true c h with h' | ⟨h1, h2⟩
          · exact Or.inl h'
          · exact Or.inr ⟨List.mem_cons_of_mem _ h1, h2⟩
    · rw [collapseWsAux, if_neg hx] at hc
      rcases List.mem_cons.1 hc with h | h
      · subst h
        exact Or.inr ⟨List.mem_cons_self _ _, by simpa using hx⟩
      · rcases ih false c h with h' | ⟨h1, h2⟩
        · exact Or.inl h'
        · exact Or.inr ⟨List.mem_cons_of_mem _ h1, h2⟩

/-- The collapsed list has no adjacent whitespace, and starts with
non-whitespace when the previous character was whitespace. -/
theorem collapseWsAux_noAdj (l : List Char) : ∀ (b : Bool),
    noAdjSpaces (collapseWsAux b l) = true
    ∧ (b = true → firstNotSpace (collapseWsAux b l) = true) := by
  induction l with
  | nil => intro b; exact ⟨rfl, fun _ => rfl⟩
  | cons x xs ih =>
    intro b
    by_cases hx : isSpaceChar x
    · cases b with
      | true =>
        rw [collapseWsAux, if_pos hx]
        exact ⟨(ih true).1, fun _ => (ih true).2 rfl⟩
      | false =>
        rw [collapseWsAux, if_pos hx]
        constructor
        · show noAdjSpaces (' ' :: collapseWsAux true xs) = true
          rw [noAdjSpaces_cons]
          have h1 := (ih true).2 rfl
          have h2 := (ih true).1
          simp [h1, h2]
        · intro h; exact absurd h (by simp)
    · rw [collapseWsAux, if_neg hx]
      constructor
      · rw [noAdjSpaces_cons]
        have h2 := (ih false).1
        simp [h2, hx]
      · intro _
        simpa [firstNotSpace] using hx

/-- Dropping leading whitespace leaves a list starting with
non-whitespace. -/
theorem firstNotSpace_dropWhile (l : List Char) :
    firstNotSpace (l.dropWhile isSpaceChar) = true := by
  induction l with
  | nil => rfl
  | cons x xs ih =>
    by_cases hx : isSpaceChar x
    · rw [List.dropWhile_cons, if_pos hx]; exact ih
    · rw [List.dropWhile_cons, if_neg hx]
      simpa [firstNotSpace] using hx

/-- `noAdjSpaces` passes to the tail. -/
theorem noAdjSpaces_tail (a : Char) (l : List Char)
    (h : noAdjSpaces (a :: l) = true) : noAdjSpaces l = true := by
  rw [noAdjSpaces_cons, Bool.and_eq_true] at h
  exact h.2

/-- `noAdjSpaces` is preserved by dropping leading whitespace. -/
theorem noAdjSpaces_dropWhile (l : List Char) (h : noAdjSpaces l = true) :
    noAdjSpaces (l.dropWhile isSpaceChar) = true := by
  induction l with
  | nil => exact h
  | cons x xs ih =>
    by_cases hx : isSpaceChar x
    · rw [List.dropWhile_cons, if_pos hx]
      exact ih (noAdjSpaces_tail _ _ h)
    · rw [List.dropWhile_cons, if_neg hx]
      exact h

/-- `noAdjSpaces` as a chain of pairwise conditions. -/
theorem noAdjSpaces_iff_chain (l : List Char) :
    noAdjSpaces l = true
      ↔ l.Chain' (fun a b => (!(isSpaceChar a && isSpaceChar b)) = true) := by
  induction l with
  | nil => simp [noAdjSpaces]
  | cons x xs ih =>
    cases xs with
    | nil => simp [noAdjSpaces]
    | cons y ys =>
      rw [show noAdjSpaces (x :: y :: ys)
            = ((!(isSpaceChar x && isSpaceChar y)) && noAdjSpaces (y :: ys)) from rfl,
        Bool.and_eq_true, List.chain'_cons, ih]

/-- `noAdjSpaces` is preserved by reversal. -/
theorem noAdjSpaces_reverse (l : List Char) (h : noAdjSpaces l = true) :
    noAdjSpaces l.reverse = true := by
  rw [noAdjSpaces_iff_chain] at h ⊢
  rw [List.chain'_reverse]
  exact h.imp (fun a b hab => by
    simp only [Bool.not_and, Bool.or_eq_true, Bool.not_eq_true'] at hab ⊢
    exact hab.symm)

end Scoring

namespace Scoring

/-- Dropping trailing whitespace (via reverse) keeps a non-whitespace first
character. -/
theorem firstNotSpace_rev_dropWhile_rev (l : List Char)
    (h : firstNotSpace l = true) :
    firstNotSpace ((l.reverse.dropWhile isSpaceChar).reverse) = true := by
  cases l with
  | nil => rfl
  | cons a as =>
    have ha : isSpaceChar a = false := by simpa [firstNotSpace] using h
    rw [List.reverse_cons, List.dropWhile_append]
    split_ifs with hempty
    · rw [List.dropWhile_cons, if_neg (by simp [ha])]
      simp [firstNotSpace, ha]
    · rw [List.reverse_append]
      simp [firstNotSpace, ha]

/-- Members of `dropWhile` are members of the original list. -/
theorem mem_of_mem_dropWhile {c : Char} {l : List Char}
    (h : c ∈ l.dropWhile isSpaceChar) : c ∈ l := by
  induction l with
  | nil => exact absurd h (by simp)
  | cons x xs ih =>
    rw [List.dropWhile_cons] at h
    split_ifs at h with hx
    · exact List.mem_cons_of_mem _ (ih h)
    · exact h

/-- `stripChars` output: no adjacent whitespace is preserved, both ends are
non-whitespace, and characters come from the input. -/
theorem stripChars_spec (l : List Char) (h : noAdjSpaces l = true) :
    noAdjSpaces (stripChars l) = true
    ∧ firstNotSpace (stripChars l) = true
    ∧ firstNotSpace (stripChars l).reverse = true
    ∧ ∀ c ∈ stripChars l, c ∈ l := by
  have h1 : noAdjSpaces (l.dropWhile isSpaceChar) = true := noAdjSpaces_dropWhile l h
  have h2 : noAdjSpaces (l.dropWhile isSpaceChar).reverse = true := noAdjSpaces_reverse _ h1
  have h3 : noAdjSpaces ((l.dropWhile isSpaceChar).reverse.dropWhile isSpaceChar) = true :=
    noAdjSpaces_dropWhile _ h2
  refine ⟨noAdjSpaces_reverse _ h3, ?_, ?_, ?_⟩
  · exact firstNotSpace_rev_dropWhile_rev _ (firstNotSpace_dropWhile l)
  · rw [stripChars, List.reverse_reverse]
    exact firstNotSpace_dropWhile _
  · intro c hc
    rw [stripChars, List.mem_reverse] at hc
    have hc2 := mem_of_mem_dropWhile hc
    rw [List.mem_reverse] at hc2
    exact mem_of_mem_dropWhile hc2

/-- The output of the text normalizer: only good characters, no adjacent
whitespace, non-whitespace at both ends. -/
theorem preprocessList_normalized (l : List Char) :
    (∀ c ∈ preprocessList l, goodChar c = true)
    ∧ noAdjSpaces (preprocessList l) = true
    ∧ firstNotSpace (preprocessList l) = true
    ∧ firstNotSpace (preprocessList l).reverse = true := by
  have hadj := (collapseWsAux_noAdj ((l.map Char.toLower).map subPunctChar) false).1
  have hstrip := stripChars_spec (collapseWsAux false ((l.map Char.toLower).map subPunctChar)) hadj
  refine ⟨?_, hstrip.1, hstrip.2.1, hstrip.2.2.1⟩
  intro c hc
  have hc2 := hstrip.2.2.2 c hc
  rcases collapseWsAux_mem _ false c hc2 with h | ⟨hmem, hns⟩
  · simp [goodChar, h]
  · simp only [List.mem_map] at hmem
    obtain ⟨c1, hc1, rfl⟩ := hmem
    obtain ⟨c0, _, rfl⟩ := hc1
    by_cases hcond : (isWordChar (Char.toLower c0) || isSpaceChar (Char.toLower c0)) = true
    · rw [subPunctChar, if_pos hcond] at hns ⊢
      rw [Bool.or_eq_true] at hcond
      rcases hcond with hw | hs
      · simp [goodChar, hw, isUpperAscii_toLower c0]
      · rw [hs] at hns
        exact absurd hns (by simp)
    · rw [subPunctChar, if_neg hcond] at hns
      exact absurd hns (by simp [isSpaceChar])

end Scoring

namespace Scoring

/-- Mapping a function that fixes every member is the identity. -/
theorem list_map_eq_self_of {α : Type} (f : α → α) (l : List α)
    (h : ∀ c ∈ l, f c = c) : l.map f = l := by
  induction l with
  | nil => rfl
  | cons x xs ih =>
    rw [List.map_cons, h x (List.mem_cons_self _ _),
      ih (fun c hc => h c (List.mem_cons_of_mem _ hc))]

/-- Collapsing whitespace fixes a list whose whitespace is single spaces
with no adjacency (and, when the flag is set, no leading space). -/
theorem collapseWsAux_fixed (l : List Char)
    (hsp : ∀ c ∈ l, isSpaceChar c = true → c = ' ')
    (hadj : noAdjSpaces l = true) :
    ∀ (b : Bool), (b = true → firstNotSpace l = true) → collapseWsAux b l = l := by
  induction l with
  | nil => intro b _; rfl
  | cons x xs ih =>
    intro b hb
    have hadjx := noAdjSpaces_tail _ _ hadj
    by_cases hx : isSpaceChar x = true
    · have hx' : x = ' ' := hsp x (List.mem_cons_self _ _) hx
      cases b with
      | true =>
        have := hb rfl
        rw [firstNotSpace] at this
        rw [hx] at this
        exact absurd this (by simp)
      | false =>
        rw [collapseWsAux, if_pos hx]
        have hfirst : firstNotSpace xs = true := by
          rw [noAdjSpaces_cons, Bool.and_eq_true, Bool.or_eq_true] at hadj
          rcases hadj.1 with h | h
          · rw [hx] at h
            exact absurd h (by simp)
          · exact h
        rw [show (if (false = true) then collapseWsAux true xs
              else ' ' :: collapseWsAux true xs) = ' ' :: collapseWsAux true xs from rfl]
        rw [ih (fun c hc hs => hsp c (List.mem_cons_of_mem _ hc) hs) hadjx true
          (fun _ => hfirst), hx']
    · rw [collapseWsAux, if_neg hx]
      rw [ih (fun c hc hs => hsp c (List.mem_cons_of_mem _ hc) hs) hadjx false
        (by intro h; exact absurd h (by simp))]

/-- Dropping leading whitespace fixes a list that does not start with
whitespace. -/
theorem dropWhile_eq_self_of_firstNotSpace (l : List Char)
    (h : firstNotSpace l = true) : l.dropWhile isSpaceChar = l := by
  cases l with
  | nil => rfl
  | cons x xs =>
    rw [firstNotSpace, Bool.not_eq_true'] at h
    rw [List.dropWhile_cons, if_neg (by simp [h])]

/-- Stripping fixes a list with non-whitespace at both ends. -/
theorem stripChars_fixed (l : List Char) (hfst : firstNotSpace l = true)
    (hlast : firstNotSpace l.reverse = true) : stripChars l = l := by
  rw [stripChars, dropWhile_eq_self_of_firstNotSpace l hfst,
    dropWhile_eq_self_of_firstNotSpace l.reverse hlast, List.reverse_reverse]

/-- The normalizer fixes every normalized list. -/
theorem preprocessList_fixed (l : List Char)
    (hgood : ∀ c ∈ l, goodChar c = true)
    (hadj : noAdjSpaces l = true)
    (hfst : firstNotSpace l = true)
    (hlast : firstNotSpace l.reverse = true) :
    preprocessList l = l := by
  have h1 : l.map Char.toLower = l :=
    list_map_eq_self_of _ _ (fun c hc => toLower_eq_self c (goodChar_not_upper c (hgood c hc)))
  have h2 : l.map subPunctChar = l := by
    apply list_map_eq_self_of
    intro c hc
    have hg := hgood c hc
    rw [subPunctChar, if_pos]
    rw [Bool.or_eq_true]
    simp only [goodChar, Bool.or_eq_true, Bool.and_eq_true, beq_iff_eq] at hg
    rcases hg with ⟨hw, _⟩ | h
    · exact Or.inl hw
    · subst h
      exact Or.inr (by decide)
  rw [preprocessList, h1, h2, collapseWs,
    collapseWsAux_fixed l (fun c hc hs => goodChar_space_eq c (hgood c hc) hs) hadj false
      (by intro h; exact absurd h (by simp)),
    stripChars_fixed l hfst hlast]

/-- C9: the text normalizer is idempotent:
`preprocess_text (preprocess_text s) = preprocess_text s` for every
string (it is a pure total function, so determinism is inherent). -/
theorem preprocess_idempotent (s : String) :
    preprocess_text (preprocess_text s) = preprocess_text s := by
  have hn := preprocessList_normalized s.data
  show (⟨preprocessList (preprocess_text s).data⟩ : String) = preprocess_text s
  rw [show (preprocess_text s).data = preprocessList s.data from rfl]
  rw [preprocessList_fixed _ hn.1 hn.2.1 hn.2.2.1 hn.2.2.2]
  rfl

end Scoring

namespace Scoring

/-- C8 counterexample: on the input `"_"` the normalizer keeps the
underscore (Python's `\w` includes it), so the output contains a character
that is neither an alphanumeric character nor a space, contradicting the
claim that every non-alphanumeric non-whitespace character is replaced and
that the output contains only lowercase alphanumerics and spaces. -/
theorem preprocess_underscore_cex :
    preprocess_text "_" = "_"
    ∧ Char.isAlphanum '_' = false
    ∧ isSpaceChar '_' = false :=
  ⟨by decide, by decide, by decide⟩

/-- C8 (amended): the normalizer lowercases, replaces every character that
is not a word character (alphanumeric or underscore) and not whitespace by
a space, collapses whitespace runs and trims; its output consists only of
word characters that are not uppercase letters, separated by single spaces,
with no leading or trailing space. -/
theorem preprocess_output_characterization (s : String) :
    (∀ c ∈ (preprocess_text s).data,
        (isWordChar c = true ∧ isUpperAscii c = false) ∨ c = ' ')
    ∧ noAdjSpaces (preprocess_text s).data = true
    ∧ firstNotSpace (preprocess_text s).data = true
    ∧ firstNotSpace (preprocess_text s).data.reverse = true := by
  have hn := preprocessList_normalized s.data
  refine ⟨?_, hn.2.1, hn.2.2.1, hn.2.2.2⟩
  intro c hc
  have hg := hn.1 c hc
  simp only [goodChar, Bool.or_eq_true, Bool.and_eq_true, beq_iff_eq,
    Bool.not_eq_true'] at hg
  exact hg

/-- Witness for C8 (amended), at the concrete input `"Hi there!"` and its
first output character. -/
theorem preprocess_output_characterization_witness :
    (isWordChar 'h' = true ∧ isUpperAscii 'h' = false) ∨ 'h' = ' ' :=
  (preprocess_output_characterization "Hi there!").1 'h' (by decide)

end Scoring

namespace Scoring

/-! ### Range lemmas for the sub-scores and the rounding -/

/-- The keyword score lies in [0, 100]. -/
theorem check_keywords_score_bounds (transcript : String) (keywords : List String)
    (thr : ℚ) :
    0 ≤ (check_keywords transcript keywords thr).2.2
    ∧ (check_keywords transcript keywords thr).2.2 ≤ 100 := by
  rw [check_keywords_eq]
  dsimp only
  split_ifs with h
  · norm_num
  · have hne : keywords ≠ [] := by
      cases keywords
      · exact absurd rfl h
      · simp
    have hlen : 0 < keywords.length := List.length_pos.2 hne
    have hlenQ : (0 : ℚ) < (keywords.length : ℚ) := by exact_mod_cast hlen
    have hfil : (keywords.filter (keywordFound (preprocessList transcript.data) thr)).length
        ≤ keywords.length := List.length_filter_le _ _
    have hdiv : ((keywords.filter (keywordFound (preprocessList transcript.data) thr)).length : ℚ)
        / (keywords.length : ℚ) ≤ 1 := by
      rw [div_le_one hlenQ]
      exact_mod_cast hfil
    constructor
    · apply mul_nonneg (div_nonneg (by positivity) (le_of_lt hlenQ)) (by norm_num)
    · nlinarith

/-- The semantic similarity score lies in [0, 100]. -/
theorem calculate_semantic_similarity_bounds (encode : String → Option (List ℚ))
    (cos : List ℚ → List ℚ → ℚ) (transcript criterion_description : String)
    (keywords : List String) :
    0 ≤ calculate_semantic_similarity encode cos transcript criterion_description keywords
    ∧ calculate_semantic_similarity encode cos transcript criterion_description keywords
        ≤ 100 := by
  unfold calculate_semantic_similarity
  cases encode transcript with
  | none => exact ⟨le_refl 0, by norm_num⟩
  | some t =>
    cases encode (reference_text criterion_description keywords) with
    | none => exact ⟨le_refl 0, by norm_num⟩
    | some r => exact ⟨le_max_left 0 _, max_le (by norm_num) (min_le_left _ _)⟩

/-- The length compliance score lies in [0, 100] for nonnegative word
counts (arbitrary band). -/
theorem calculate_word_count_score_bounds (word_count min_words max_words : ℤ)
    (hwc : 0 ≤ word_count) :
    0 ≤ (calculate_word_count_score word_count min_words max_words).1
    ∧ (calculate_word_count_score word_count min_words max_words).1 ≤ 100 := by
  rw [calculate_word_count_score_fst]
  split_ifs with h1 h2
  · have hmn : (0 : ℚ) < (min_words : ℚ) := by exact_mod_cast (by omega : 0 < min_words)
    have hw0 : (0 : ℚ) ≤ (word_count : ℚ) := by exact_mod_cast hwc
    have hdiv : (word_count : ℚ) / (min_words : ℚ) ≤ 1 := by
      rw [div_le_one hmn]
      exact_mod_cast le_of_lt h1
    constructor
    · apply mul_nonneg (div_nonneg hw0 (le_of_lt hmn)) (by norm_num)
    · nlinarith
  · have hex : (0 : ℚ) ≤ (word_count : ℚ) - (max_words : ℚ) := by
      have : (max_words : ℚ) ≤ (word_count : ℚ) := by exact_mod_cast le_of_lt h2
      linarith
    have hpen : (0 : ℚ) ≤ min 50 (((word_count : ℚ) - (max_words : ℚ)) / 100 * 20) := by
      apply le_min (by norm_num)
      nlinarith
    constructor
    · calc (0 : ℚ) ≤ 50 := by norm_num
        _ ≤ max 50 (100 - min 50 (((word_count : ℚ) - (max_words : ℚ)) / 100 * 20)) :=
          le_max_left _ _
    · apply max_le (by norm_num)
      linarith
  · norm_num

/-- Rounding half to even is at least the floor. -/
theorem floor_le_round_half_even (x : ℚ) : ⌊x⌋ ≤ round_half_even x := by
  unfold round_half_even
  split_ifs <;> omega

/-- Rounding half to even is at most the ceiling. -/
theorem round_half_even_le_ceil (x : ℚ) : round_half_even x ≤ ⌈x⌉ := by
  unfold round_half_even
  have hfc : ⌊x⌋ ≤ ⌈x⌉ := Int.floor_le_ceil x
  split_ifs with h1 h2 h3
  · exact hfc
  · have : (⌊x⌋ : ℚ) < x := by linarith
    exact Int.lt_ceil.2 this
  · exact hfc
  · have h4 : (1 : ℚ)/2 ≤ x - ⌊x⌋ := le_of_not_lt h1
    have : (⌊x⌋ : ℚ) < x := by linarith
    exact Int.lt_ceil.2 this

/-- `pyRound1` preserves the [0, 100] range. -/
theorem pyRound1_bounds (x : ℚ) (h0 : 0 ≤ x) (h1 : x ≤ 100) :
    0 ≤ pyRound1 x ∧ pyRound1 x ≤ 100 := by
  have hf : (0 : ℤ) ≤ ⌊10 * x⌋ := Int.le_floor.2 (by push_cast; linarith)
  have hc : ⌈10 * x⌉ ≤ (1000 : ℤ) := Int.ceil_le.2 (by push_cast; linarith)
  have hlo : (0 : ℤ) ≤ round_half_even (10 * x) :=
    le_trans hf (floor_le_round_half_even _)
  have hhi : round_half_even (10 * x) ≤ (1000 : ℤ) :=
    le_trans (round_half_even_le_ceil _) hc
  have hloQ : (0 : ℚ) ≤ (round_half_even (10 * x) : ℚ) := by exact_mod_cast hlo
  have hhiQ : (round_half_even (10 * x) : ℚ) ≤ 1000 := by exact_mod_cast hhi
  unfold pyRound1
  constructor
  · positivity
  · rw [div_le_iff₀ (by norm_num : (0:ℚ) < 10)]
    linarith

end Scoring

namespace Scoring

/-- Each criterion score lies in [0, 100] (nonnegative word count). -/
theorem score_criterion_bounds (encode : String → Option (List ℚ))
    (cos : List ℚ → List ℚ → ℚ) (transcript : String) (criterion : Criterion)
    (word_count : ℤ) (hwc : 0 ≤ word_count) :
    0 ≤ (score_criterion encode cos transcript criterion word_count).score
    ∧ (score_criterion encode cos transcript criterion word_count).score ≤ 100 := by
  have hk := check_keywords_score_bounds transcript criterion.keywords 85
  have hs := calculate_semantic_similarity_bounds encode cos transcript
    criterion.description criterion.keywords
  have hw := calculate_word_count_score_bounds word_count criterion.min_words
    criterion.max_words hwc
  have hdef : (score_criterion encode cos transcript criterion word_count).score
      = pyRound1
          ((check_keywords transcript criterion.keywords 85).2.2 * (0.40 : ℚ)
            + calculate_semantic_similarity encode cos transcript criterion.description
                criterion.keywords * (0.50 : ℚ)
            + (calculate_word_count_score word_count criterion.min_words
                criterion.max_words).1 * (0.10 : ℚ)) := rfl
  rw [hdef]
  apply pyRound1_bounds
  · have h4 : (0.40 : ℚ) = 2/5 := by norm_num
    have h5 : (0.50 : ℚ) = 1/2 := by norm_num
    have h1 : (0.10 : ℚ) = 1/10 := by norm_num
    rw [h4, h5, h1]
    nlinarith [hk.1, hs.1, hw.1]
  · have h4 : (0.40 : ℚ) = 2/5 := by norm_num
    have h5 : (0.50 : ℚ) = 1/2 := by norm_num
    have h1 : (0.10 : ℚ) = 1/10 := by norm_num
    rw [h4, h5, h1]
    nlinarith [hk.2, hs.2, hw.2]

/-- Bounds for the weighted sum of criterion scores. -/
theorem weighted_sum_bounds (results : List CriterionResult)
    (hs : ∀ r ∈ results, 0 ≤ r.score ∧ r.score ≤ 100)
    (hw : ∀ r ∈ results, 0 ≤ r.weight) :
    0 ≤ (results.map (fun r => r.score * r.weight)).sum
    ∧ (results.map (fun r => r.score * r.weight)).sum
        ≤ 100 * (results.map (fun r => r.weight)).sum := by
  induction results with
  | nil => simp
  | cons r rs ih =>
    have h1 := hs r (List.mem_cons_self _ _)
    have h2 := hw r (List.mem_cons_self _ _)
    have ih2 := ih (fun x hx => hs x (List.mem_cons_of_mem _ hx))
      (fun x hx => hw x (List.mem_cons_of_mem _ hx))
    simp only [List.map_cons, List.sum_cons]
    constructor
    · have h3 : 0 ≤ r.score * r.weight := mul_nonneg h1.1 h2
      linarith [ih2.1]
    · have h3 : r.score * r.weight ≤ 100 * r.weight :=
        mul_le_mul_of_nonneg_right h1.2 h2
      have h4 := ih2.2
      ring_nf
      ring_nf at h3 h4
      linarith

end Scoring

namespace Scoring

/-- C6 (amended): for every successful scoring call, every criterion result
score lies in [0, 100]; and whenever the rubric weights are nonnegative and
sum to at most 1, the overall score (the direct weighted sum of the rounded
criterion scores, rounded to one decimal, with no renormalization) also
lies in [0, 100]. -/
theorem overall_score_bounds (encode : String → Option (List ℚ))
    (cos : List ℚ → List ℚ → ℚ) (rubric : List Criterion) (transcript : String)
    (resp : ScoringResponse)
    (hok : score_transcript encode cos rubric transcript = .ok resp) :
    (∀ r ∈ resp.criteria, 0 ≤ r.score ∧ r.score ≤ 100)
    ∧ ((∀ c ∈ rubric, 0 ≤ c.weight) → (rubric.map (fun c => c.weight)).sum ≤ 1 →
        0 ≤ resp.overall_score ∧ resp.overall_score ≤ 100) := by
  simp only [score_transcript] at hok
  split_ifs at hok with h1 h2
  have hr := Except.ok.inj hok
  subst hr
  have hcb : ∀ r ∈ rubric.map (fun criterion =>
      score_criterion encode cos (pyStrip transcript) criterion
        ((count_words (pyStrip transcript) : ℕ) : ℤ)),
      0 ≤ r.score ∧ r.score ≤ 100 := by
    intro r hrm
    simp only [List.mem_map] at hrm
    obtain ⟨c, _, rfl⟩ := hrm
    exact score_criterion_bounds encode cos _ c _ (Int.natCast_nonneg _)
  refine ⟨hcb, ?_⟩
  intro hwp hsum
  have hwb : ∀ r ∈ rubric.map (fun criterion =>
      score_criterion encode cos (pyStrip transcript) criterion
        ((count_words (pyStrip transcript) : ℕ) : ℤ)),
      0 ≤ r.weight := by
    intro r hrm
    simp only [List.mem_map] at hrm
    obtain ⟨c, hc, rfl⟩ := hrm
    exact hwp c hc
  have hb := weighted_sum_bounds _ hcb hwb
  have hmw : ((rubric.map (fun criterion =>
      score_criterion encode cos (pyStrip transcript) criterion
        ((count_words (pyStrip transcript) : ℕ) : ℤ))).map (fun r => r.weight))
      = rubric.map (fun c => c.weight) := by
    rw [List.map_map]
    rfl
  rw [hmw] at hb
  have hS : ((rubric.map (fun criterion =>
      score_criterion encode cos (pyStrip transcript) criterion
        ((count_words (pyStrip transcript) : ℕ) : ℤ))).map
          (fun r => r.score * r.weight)).sum ≤ 100 := by
    have h100 : 100 * (rubric.map (fun c => c.weight)).sum ≤ 100 * 1 := by
      have := mul_le_mul_of_nonneg_left hsum (by norm_num : (0:ℚ) ≤ 100)
      simpa using this
    calc ((rubric.map (fun criterion =>
            score_criterion encode cos (pyStrip transcript) criterion
              ((count_words (pyStrip transcript) : ℕ) : ℤ))).map
                (fun r => r.score * r.weight)).sum
        ≤ 100 * (rubric.map (fun c => c.weight)).sum := hb.2
      _ ≤ 100 := by linarith
  exact pyRound1_bounds _ hb.1 hS

/-- C6 counterexample: a rubric of two criteria, each with weight 1 (so the
weights do not sum to 1), a ten-word valid transcript and perfectly scoring
collaborators produce `overall_score = 200 > 100`: `score_transcript`
performs no renormalization, so the claimed bound `overall_score ≤ 100`
fails for this rubric. -/
theorem overall_score_exceeds_100_cex :
    score_transcript (fun _ => some [1]) (fun _ _ => 1)
      [{ name := "A", description := "d1", keywords := ["w"], weight := 1,
         min_words := 5, max_words := 500 },
       { name := "B", description := "d2", keywords := ["w"], weight := 1,
         min_words := 5, max_words := 500 }]
      "w w w w w w w w w w"
      = .ok { overall_score := 200, total_words := 10,
              criteria :=
                [{ name := "A", description := "d1", score := 100,
                   semantic_similarity := 100, keywords_found := ["w"],
                   keywords_missing := [],
                   length_feedback := "Good length - within recommended range.",
                   weight := 1 },
                 { name := "B", description := "d2", score := 100,
                   semantic_similarity := 100, keywords_found := ["w"],
                   keywords_missing := [],
                   length_feedback := "Good length - within recommended range.",
                   weight := 1 }] }
    ∧ ¬((200 : ℚ) ≤ 100) :=
  ⟨by with_unfolding_all rfl, by decide⟩

/-- Witness for C6 (amended) at a one-criterion rubric of weight 1/2. -/
theorem overall_score_bounds_witness :
    (∀ r ∈ [({ name := "A", description := "d", score := 10, semantic_similarity := 0,
               keywords_found := [], keywords_missing := [],
               length_feedback := "Good length - within recommended range.",
               weight := 1/2 } : CriterionResult)], 0 ≤ r.score ∧ r.score ≤ 100)
    ∧ ((∀ c ∈ [({ name := "A", description := "d", keywords := [], weight := 1/2,
                  min_words := 5, max_words := 500 } : Criterion)], 0 ≤ c.weight) →
        (([({ name := "A", description := "d", keywords := [], weight := 1/2,
              min_words := 5, max_words := 500 } : Criterion)] : List Criterion).map
            (fun c => c.weight)).sum ≤ 1 →
        0 ≤ (5 : ℚ) ∧ (5 : ℚ) ≤ 100) :=
  overall_score_bounds (fun _ => none) (fun _ _ => 0)
    [{ name := "A", description := "d", keywords := [], weight := 1/2,
       min_words := 5, max_words := 500 }]
    "w w w w w w w w w w"
    { overall_score := 5, total_words := 10,
      criteria := [{ name := "A", description := "d", score := 10, semantic_similarity := 0,
                     keywords_found := [], keywords_missing := [],
                     length_feedback := "Good length - within recommended range.",
                     weight := 1/2 }] }
    (by with_unfolding_all rfl)

end Scoring
